import Mathlib

/-!
Verification development for the NER dataset preprocessing module
(assignment3/dataset.py): a shallow embedding of the overlap resolver, the
span-to-token aligner, the IOBES encoder, the tag vocabulary and the sample
truncation/batching helpers, with theorems about the properties the design
document states.

Conventions of the embedding: Python lists become Lean lists, Python ints
become Int (indices and ids that are always non-negative become Nat), Python
dicts become insertion-ordered association lists with overwrite-in-place
assignment, and a Python operation that can raise becomes an Option-valued
function whose none is the raised error. Python sorted(...) is a stable
ascending sort; List.insertionSort with the same key order models it.
-/

namespace NERDataset

/-- An entity annotation as parsed from a line of the form
"start end entity_type": the triple (start, end, entity_type), with
end-inclusive character offsets. -/
abbrev Ann : Type := Int × Int × String

/-- Embedding of NERDataset._overlap: two spans a and b overlap iff
a[0] <= b[0] <= a[1] or b[0] <= a[0] <= b[1] (Python chained comparisons;
the function returns True in that case and False otherwise). -/
def _overlap (a b : Ann) : Bool :=
  if (a.1 ≤ b.1 ∧ b.1 ≤ a.2.1) ∨ (b.1 ≤ a.1 ∧ a.1 ≤ b.2.1) then true else false

/-- Model of Python str.split() with no argument: split on runs of
whitespace, producing no empty fields. Structural recursion over the
characters, carrying the word currently being read. -/
def pySplitAux : List Char → List Char → List (List Char)
  | [], acc => if acc.isEmpty then [] else [acc]
  | c :: cs, acc =>
    if c.isWhitespace then
      if acc.isEmpty then pySplitAux cs [] else acc :: pySplitAux cs []
    else pySplitAux cs (acc ++ [c])

/-- Model of Python str.split() on a String. -/
def pySplit (s : String) : List String :=
  (pySplitAux s.data []).map String.mk

/-- Value of a non-empty run of decimal digits; none when a character is not
a digit. -/
def digitsVal (cs : List Char) : Option Nat :=
  cs.foldlM (fun (acc : Nat) (c : Char) =>
    if c.isDigit then some (acc * 10 + (c.toNat - 48)) else none) 0

/-- Model of Python int(str) on the fields this dataset feeds it: an optional
sign followed by at least one decimal digit; none models the ValueError on
anything else. -/
def pyInt (cs : List Char) : Option Int :=
  match cs with
  | [] => none
  | '-' :: rest =>
    if rest.isEmpty then none else (digitsVal rest).map (fun n => -(n : Int))
  | '+' :: rest =>
    if rest.isEmpty then none else (digitsVal rest).map (fun n => (n : Int))
  | _ => (digitsVal cs).map (fun n => (n : Int))

/-- Embedding of the parsing step of parse_annotations:
start, end, entity_type = annotation.split() followed by
(int(start), int(end), entity_type); none models the ValueError Python
raises when the line does not have exactly three fields or an offset is not
an integer. -/
def parseAnnLine (s : String) : Option Ann :=
  match pySplit s with
  | [st, en, ty] =>
    match pyInt st.data, pyInt en.data with
    | some a, some b => some (a, b, ty)
    | _, _ => none
  | _ => none

/-- Sort key of the first sorted(...) in parse_annotations: ascending span
length x[1] - x[0]. -/
def lenLe (x y : Ann) : Prop := x.2.1 - x.1 ≤ y.2.1 - y.1

instance : DecidableRel lenLe := fun x y => inferInstanceAs (Decidable (_ ≤ _))

/-- Sort key of the final sorted(...) in parse_annotations: ascending start
offset x[0]. -/
def startLe (x y : Ann) : Prop := x.1 ≤ y.1

instance : DecidableRel startLe := fun x y => inferInstanceAs (Decidable (_ ≤ _))

/-- Embedding of the greedy acceptance loop of parse_annotations: an
annotation is appended iff sum([_overlap(annotation, j) for j in
filtered_annotations]) == 0. -/
def acceptLoop (parsed : List Ann) : List Ann :=
  parsed.foldl
    (fun filtered a =>
      if (filtered.map (fun j => if _overlap a j then 1 else 0)).sum = 0 then
        filtered ++ [a]
      else filtered)
    []

/-- Embedding of NERDataset.parse_annotations: parse each line, sort
ascending by span length (stable), greedily drop overlapping entities, and
when sort is true re-sort the survivors ascending by start offset. Returns
(filtered_annotations, parsed_annotations). -/
def parse_annotations (anns : List String) (sort : Bool := true) :
    Option (List Ann × List Ann) := do
  let parsed0 ← anns.mapM parseAnnLine
  let parsed := List.insertionSort lenLe parsed0
  let filtered := acceptLoop parsed
  let filtered := if sort then List.insertionSort startLe filtered else filtered
  return (filtered, parsed)

/-- Model of the Python dict assignment d[k] = v: overwrite in place when the
key is present, else append; insertion order is preserved. -/
def dictInsert {α β : Type} [DecidableEq α] (d : List (α × β)) (k : α) (v : β) :
    List (α × β) :=
  if d.any (fun p => p.1 = k) then d.map (fun p => if p.1 = k then (k, v) else p)
  else d ++ [(k, v)]

/-- Model of the Python dict lookup d.get(k): the value of the entry whose
key is k, if any. -/
def dictGet {α β : Type} [DecidableEq α] (d : List (α × β)) (k : α) : Option β :=
  (d.find? (fun p => p.1 = k)).map (fun p => p.2)

/-- Embedding of the tags2id construction in NERDataset.__init__: for each
i, tag in enumerate(tags), assign ids 4i+1..4i+4 to the S-, B-, I-, E-
variants of the tag, then assign id 0 to O. -/
def tags2id (tags : List String) : List (String × Nat) :=
  dictInsert
    (tags.enum.foldl
      (fun d p =>
        dictInsert
          (dictInsert
            (dictInsert
              (dictInsert d ("S-" ++ p.2) (4 * p.1 + 1))
              ("B-" ++ p.2) (4 * p.1 + 2))
            ("I-" ++ p.2) (4 * p.1 + 3))
          ("E-" ++ p.2) (4 * p.1 + 4))
      [])
    "O" 0

/-- Embedding of id2tags = {v: k for k, v in tags2id.items()}. -/
def id2tags (tags : List String) : List (Nat × String) :=
  (tags2id tags).foldl (fun d p => dictInsert d p.2 p.1) []

/-- Embedding of NERDataset.convert_ids_to_tags:
[id2tags.get(i, 'O') for i in ids]. -/
def convert_ids_to_tags (tags : List String) (ids : List Nat) : List String :=
  ids.map (fun i => (dictGet (id2tags tags) i).getD "O")

/-- Flat association list the tags2id construction produces on a
duplicate-free entity type list: the S-, B-, I-, E- entries of the tags in
order, ids 4i+1..4i+4 for index i. Proof-side description of tags2id, to be
compared with it. -/
def quadList (n : Nat) (tags : List String) : List (String × Nat) :=
  (List.enumFrom n tags).flatMap (fun p =>
    [("S-" ++ p.2, 4 * p.1 + 1), ("B-" ++ p.2, 4 * p.1 + 2),
     ("I-" ++ p.2, 4 * p.1 + 3), ("E-" ++ p.2, 4 * p.1 + 4)])

/-- Embedding of NERDataset._convert_to_iobes: per position i with label
tag, emit O for O; otherwise S-, B-, E- or I- prefixed by whether the
position starts a run (i == 0 or tags[i-1] != tag) and ends a run
(i+1 == len(tags) or tags[i+1] != tag). The getD default is never read:
each disjunction short-circuits exactly where Python does. -/
def _convert_to_iobes (tags : List String) : List String :=
  tags.enum.map (fun p =>
    if p.2 = "O" then p.2
    else
      if p.1 = 0 ∨ tags.getD (p.1 - 1) "" ≠ p.2 then
        if p.1 + 1 = tags.length ∨ tags.getD (p.1 + 1) "" ≠ p.2 then "S-" ++ p.2
        else "B-" ++ p.2
      else
        if p.1 + 1 = tags.length ∨ tags.getD (p.1 + 1) "" ≠ p.2 then "E-" ++ p.2
        else "I-" ++ p.2)

/-- Embedding of NERDataset._truncate_output restricted to the three core
fields: input_ids and token_type_ids are cut to a prefix of max_length
elements, then the last input_ids element is overwritten with the [SEP] id
when it differs from it; in train mode tags_ids is cut the same way, in dev
mode the sample carries no tags_ids. The none models the IndexError
input_ids[-1] raises when the truncated input_ids is empty. -/
def _truncate_output (devMode : Bool) (maxLength : Nat) (sepToken : Int)
    (inputIds tokenTypeIds tagsIds : List Int) :
    Option (List Int × List Int × Option (List Int)) :=
  let ii := inputIds.take maxLength
  let tt := tokenTypeIds.take maxLength
  match ii.getLast? with
  | none => none
  | some lastTok =>
    let ii2 := if lastTok = sepToken then ii else ii.dropLast ++ [sepToken]
    if devMode then some (ii2, tt, none)
    else some (ii2, tt, some (tagsIds.take maxLength))

/-- Scan of the inner loop of convert_to_token_level over the enumerated zip
of special_tokens and offsets, carrying the running start_token_idx: a
special token is skipped, a token whose start offset equals the span start
updates start_token_idx, and a token whose end offset equals the span end
sets end_token_idx and stops the scan (the Python break). -/
def scanOffsets (st en : Int) :
    List (Nat × Nat × Int × Int) → Option Nat → Option Nat × Option Nat
  | [], si => (si, none)
  | (i, sp, so, eo) :: rest, si =>
    if sp = 1 then scanOffsets st en rest si
    else
      let si2 := if so = st then some i else si
      if eo = en then (si2, some i) else scanOffsets st en rest si2

/-- Assignment loop token_level_annotations[i] = entity_type for i in
range(start_token_idx, end_token_idx + 1); none models the IndexError an
out-of-range index would raise. -/
def setRange (labels : List String) (ty : String) (idxs : List Nat) :
    Option (List String) :=
  idxs.foldlM
    (fun (l : List String) i => if i < l.length then some (l.set i ty) else none)
    labels

/-- Embedding of NERDataset.convert_to_token_level: start from all-O labels,
give each annotation whose exact start and end offsets are both found the
token range between them, then encode in IOBES. The two length asserts of
the source are modeled as checks that cannot fail. -/
def convert_to_token_level (tokens : List String) (offsets : List (Int × Int))
    (specialTokens : List Nat) (anns : List Ann) : Option (List String) := do
  let init := List.replicate tokens.length "O"
  let zipped := (specialTokens.zip offsets).enum.map
    (fun q => (q.1, q.2.1, q.2.2.1, q.2.2.2))
  let labels ← anns.foldlM
    (fun (labels : List String) a =>
      match scanOffsets a.1 a.2.1 zipped none with
      | (some s, some e) => setRange labels a.2.2 (List.range' s (e + 1 - s))
      | _ => some labels)
    init
  if labels.length = tokens.length then
    let iobes := _convert_to_iobes labels
    if labels.length = iobes.length then some iobes else none
  else none

/-- Embedding of collate_batch, with torch.LongTensor and torch.stack
modeled as plain lists of rows. A sample is (input_ids, token_type_ids,
optional tags_ids), matching the 2- or 3-field samples the dataset returns;
none models the ValueError max() raises on an empty batch. Padding appends
zeros up to the maximum input_ids length of the batch, and the tag rows are
stacked only for the samples that carry them. -/
def collate_batch (batch : List (List Int × List Int × Option (List Int))) :
    Option (List (List Int) × List (List Int) × Option (List (List Int))) :=
  match batch with
  | [] => none
  | b :: bs =>
    let maxLength := ((b :: bs).map (fun x => x.1.length)).foldl max 0
    let pad := fun (l : List Int) => l ++ List.replicate (maxLength - l.length) 0
    let inputRows := (b :: bs).map (fun x => pad x.1)
    let tokenTypeRows := (b :: bs).map (fun x => pad x.2.1)
    let tagRows := (b :: bs).filterMap (fun x => x.2.2.map pad)
    some (inputRows, tokenTypeRows, if tagRows.isEmpty then none else some tagRows)

/-! ## Overlap test: characterization and symmetry -/

/-- Propositional characterization of the _overlap test. -/
theorem overlap_eq_true (a b : Ann) :
    _overlap a b = true ↔
      ((a.1 ≤ b.1 ∧ b.1 ≤ a.2.1) ∨ (b.1 ≤ a.1 ∧ a.1 ≤ b.2.1)) := by
  by_cases h : ((a.1 ≤ b.1 ∧ b.1 ≤ a.2.1) ∨ (b.1 ≤ a.1 ∧ a.1 ≤ b.2.1)) <;>
    simp [_overlap, h]

/-- The _overlap test is false exactly when neither chained comparison holds. -/
theorem overlap_eq_false (a b : Ann) :
    _overlap a b = false ↔
      ¬ ((a.1 ≤ b.1 ∧ b.1 ≤ a.2.1) ∨ (b.1 ≤ a.1 ∧ a.1 ≤ b.2.1)) := by
  rw [← Bool.not_eq_true, overlap_eq_true]

/-- The _overlap test is symmetric in its two spans. -/
theorem overlap_comm (a b : Ann) : _overlap a b = _overlap b a := by
  cases hab : _overlap a b with
  | true =>
    exact ((overlap_eq_true b a).mpr (or_comm.mp ((overlap_eq_true a b).mp hab))).symm
  | false =>
    cases hba : _overlap b a with
    | true =>
      exact absurd (or_comm.mp ((overlap_eq_true b a).mp hba))
        ((overlap_eq_false a b).mp hab)
    | false => rfl

/-- C2 counterexample: a pair of spans with a[1] == b[0] on which _overlap
returns false. The span (5,3) is degenerate (end before start), so neither
chained comparison holds even though it ends exactly where (3,4) begins;
the claim as stated quantifies over every pair of spans and is false here. -/
theorem overlap_boundary_cex :
    (((5 : Int), (3 : Int), "A") : Ann).2.1 = (((3 : Int), (4 : Int), "B") : Ann).1 ∧
    _overlap ((5 : Int), (3 : Int), "A") ((3 : Int), (4 : Int), "B") = false := by
  decide

/-- C2 (amended): for every pair of spans, _overlap returns true iff
a[0] <= b[0] <= a[1] or b[0] <= a[0] <= b[1]; and whenever the first span is
well-formed (a[0] <= a[1]) and ends exactly where the second begins
(a[1] == b[0]), _overlap returns true. -/
theorem overlap_characterization (a b : Ann) :
    (_overlap a b = true ↔
      ((a.1 ≤ b.1 ∧ b.1 ≤ a.2.1) ∨ (b.1 ≤ a.1 ∧ a.1 ≤ b.2.1))) ∧
    (a.1 ≤ a.2.1 → a.2.1 = b.1 → _overlap a b = true) := by
  refine ⟨overlap_eq_true a b, fun hw he => ?_⟩
  exact (overlap_eq_true a b).mpr (Or.inl ⟨by omega, by omega⟩)

/-! ## Overlap resolver: no accepted pair overlaps -/

/-- The sum the greedy loop tests is zero exactly when the candidate
annotation overlaps no already accepted one. -/
theorem accept_sum_eq_zero (a : Ann) (acc : List Ann) :
    ((acc.map (fun j => if _overlap a j then 1 else 0)).sum = 0) ↔
      ∀ j ∈ acc, _overlap a j = false := by
  rw [List.sum_eq_zero_iff]
  simp only [List.mem_map, forall_exists_index, and_imp]
  constructor
  · intro h j hj
    have := h _ j hj rfl
    cases hx : _overlap a j
    · rfl
    · rw [hx] at this; simp at this
  · intro h y j hj he
    subst he
    rw [h j hj]
    rfl

/-- Invariant of the greedy acceptance loop: starting from a pairwise
non-overlapping accumulator, the accumulator stays pairwise
non-overlapping. -/
theorem acceptLoop_aux_pairwise (l acc : List Ann)
    (h : List.Pairwise (fun a b => _overlap a b = false) acc) :
    List.Pairwise (fun a b => _overlap a b = false)
      (l.foldl
        (fun filtered a =>
          if (filtered.map (fun j => if _overlap a j then 1 else 0)).sum = 0 then
            filtered ++ [a]
          else filtered)
        acc) := by
  induction l generalizing acc with
  | nil => simpa using h
  | cons x xs ih =>
    rw [List.foldl_cons]
    by_cases hc : ((acc.map (fun j => if _overlap x j then 1 else 0)).sum = 0)
    · rw [if_pos hc]
      apply ih
      rw [List.pairwise_append]
      refine ⟨h, List.pairwise_singleton _ _, ?_⟩
      intro p hp q hq
      rw [List.mem_singleton] at hq
      subst hq
      rw [overlap_comm]
      exact (accept_sum_eq_zero _ acc).mp hc p hp
    · rw [if_neg hc]
      exact ih acc h

/-- The greedy acceptance loop produces a pairwise non-overlapping list. -/
theorem acceptLoop_pairwise (parsed : List Ann) :
    List.Pairwise (fun a b => _overlap a b = false) (acceptLoop parsed) :=
  acceptLoop_aux_pairwise parsed [] List.Pairwise.nil

/-- C1: for every input list of annotation strings, every pair of distinct
annotations in the filtered output of parse_annotations is non-overlapping:
the greedy pass accepts an annotation only if it overlaps no
already-accepted annotation, and the final re-sort only permutes them. -/
theorem parse_annotations_no_overlap (anns : List String) (sort : Bool)
    (filtered parsed : List Ann)
    (h : parse_annotations anns sort = some (filtered, parsed)) :
    List.Pairwise (fun a b => _overlap a b = false) filtered := by
  unfold parse_annotations at h
  cases hm : anns.mapM parseAnnLine with
  | none => rw [hm] at h; simp at h
  | some parsed0 =>
    rw [hm] at h
    simp only [Option.bind_eq_bind, Option.some_bind, Option.pure_def,
      Option.some.injEq, Prod.mk.injEq] at h
    obtain ⟨rfl, -⟩ := h
    have hbase := acceptLoop_pairwise (List.insertionSort lenLe parsed0)
    cases sort with
    | false => simpa using hbase
    | true =>
      rw [if_pos rfl]
      refine hbase.perm (List.perm_insertionSort startLe _).symm ?_
      intro x y hxy
      rw [overlap_comm]
      exact hxy

/-- Witness for C1 at a concrete input: the end-to-end scenario annotations
"0 4 PER" and "13 19 LOC". -/
theorem parse_annotations_no_overlap_witness :
    List.Pairwise (fun a b => _overlap a b = false)
      [(((0 : Int), (4 : Int), "PER") : Ann), ((13 : Int), (19 : Int), "LOC")] :=
  parse_annotations_no_overlap ["0 4 PER", "13 19 LOC"] true
    [((0 : Int), (4 : Int), "PER"), ((13 : Int), (19 : Int), "LOC")]
    [((0 : Int), (4 : Int), "PER"), ((13 : Int), (19 : Int), "LOC")] (by decide)

/-! ## Overlap resolver: shorter-span precedence -/

/-- C5 counterexample: an input on which two annotations overlap, have
different span lengths, and yet the shorter one, (1,4,"Y"), is not in the
filtered output: the even shorter accepted annotation (0,1,"X") knocks it
out first, after which the longer (3,10,"Z") is accepted. -/
theorem shorter_span_cex :
    parse_annotations ["0 1 X", "1 4 Y", "3 10 Z"] true =
      some ([((0 : Int), (1 : Int), "X"), ((3 : Int), (10 : Int), "Z")],
        [((0 : Int), (1 : Int), "X"), ((1 : Int), (4 : Int), "Y"),
          ((3 : Int), (10 : Int), "Z")]) ∧
    _overlap ((1 : Int), (4 : Int), "Y") ((3 : Int), (10 : Int), "Z") = true ∧
    ((4 : Int) - 1 ≠ (10 : Int) - 3) ∧
    ¬ ((((1 : Int), (4 : Int), "Y") : Ann) ∈
        [(((0 : Int), (1 : Int), "X") : Ann), ((3 : Int), (10 : Int), "Z")]) := by
  decide

/-- C5 (amended): for every input consisting of exactly two overlapping
annotations of different span lengths, in either order, the shorter one is
the filtered output of parse_annotations and the longer one is dropped: the
ascending sort by span length puts the shorter first and the greedy pass
then rejects the longer. -/
theorem shorter_span_two (s1 s2 : String) (x y : Ann) (sort : Bool)
    (h1 : parseAnnLine s1 = some x) (h2 : parseAnnLine s2 = some y)
    (hov : _overlap x y = true) (hlen : x.2.1 - x.1 ≠ y.2.1 - y.1) :
    parse_annotations [s1, s2] sort =
      some (if x.2.1 - x.1 < y.2.1 - y.1 then ([x], [x, y]) else ([y], [y, x])) := by
  have hmap : ([s1, s2]).mapM parseAnnLine = some [x, y] := by
    rw [List.mapM_cons, List.mapM_cons, List.mapM_nil, h1, h2]
    rfl
  unfold parse_annotations
  rw [hmap]
  simp only [Option.bind_eq_bind, Option.some_bind]
  by_cases hc : x.2.1 - x.1 < y.2.1 - y.1
  · rw [if_pos hc]
    have hle : lenLe x y := le_of_lt hc
    have hsorted : List.insertionSort lenLe [x, y] = [x, y] := by
      simp only [List.insertionSort, List.orderedInsert]
      rw [if_pos hle]
    have hyx : _overlap y x = true := by rw [overlap_comm]; exact hov
    have hacc : acceptLoop [x, y] = [x] := by
      simp [acceptLoop, hyx]
    rw [hsorted, hacc]
    cases sort with
    | false => rfl
    | true => simp [List.insertionSort, List.orderedInsert]
  · rw [if_neg hc]
    have hnle : ¬ lenLe x y := by
      have hlt : y.2.1 - y.1 < x.2.1 - x.1 :=
        lt_of_le_of_ne (not_lt.mp hc) (fun he => hlen he.symm)
      show ¬ (x.2.1 - x.1 ≤ y.2.1 - y.1)
      omega
    have hsorted : List.insertionSort lenLe [x, y] = [y, x] := by
      simp only [List.insertionSort, List.orderedInsert]
      rw [if_neg hnle]
    have hacc : acceptLoop [y, x] = [y] := by
      simp [acceptLoop, hov]
    rw [hsorted, hacc]
    cases sort with
    | false => rfl
    | true => simp [List.insertionSort, List.orderedInsert]

/-- Witness for C5 (amended) at a concrete input with the longer annotation
first: on "3 10 Z" (length 7) then "1 4 Y" (length 3) the resolver still
keeps the shorter annotation and drops the longer. -/
theorem shorter_span_two_witness :
    parse_annotations ["3 10 Z", "1 4 Y"] true =
      some ([((1 : Int), (4 : Int), "Y")],
        [((1 : Int), (4 : Int), "Y"), ((3 : Int), (10 : Int), "Z")]) := by
  have h := shorter_span_two "3 10 Z" "1 4 Y" ((3 : Int), (10 : Int), "Z")
    ((1 : Int), (4 : Int), "Y") true (by decide) (by decide) (by decide)
    (by decide)
  rw [h]
  decide

/-! ## IOBES encoder -/

/-- The IOBES encoder preserves the length of the label sequence. -/
theorem iobes_length (tags : List String) :
    (_convert_to_iobes tags).length = tags.length := by
  simp [_convert_to_iobes]

/-- Per-position characterization of the IOBES encoder, with the run
boundaries read off the neighbouring labels: position i starts a run when
i = 0 or the previous label differs, and ends one when the next position is
absent or its label differs. -/
theorem iobes_get (tags : List String) (i : Nat) (L : String)
    (h : tags.get? i = some L) :
    (_convert_to_iobes tags).get? i = some
      (if L = "O" then "O"
       else if i = 0 ∨ tags.get? (i - 1) ≠ some L then
         if tags.get? (i + 1) ≠ some L then "S-" ++ L else "B-" ++ L
       else if tags.get? (i + 1) ≠ some L then "E-" ++ L else "I-" ++ L) := by
  have hi : i < tags.length := by
    by_contra hge
    rw [not_lt, ← List.get?_eq_none] at hge
    rw [hge] at h
    exact Option.noConfusion h
  have hstart : (i = 0 ∨ tags.getD (i - 1) "" ≠ L) ↔
      (i = 0 ∨ tags.get? (i - 1) ≠ some L) := by
    cases i with
    | zero => simp
    | succ j =>
      simp only [Nat.succ_ne_zero, false_or, Nat.add_sub_cancel]
      have hj : j < tags.length := by omega
      have hv : tags.get? j = some (tags.get ⟨j, hj⟩) := List.get?_eq_get hj
      rw [List.getD_eq_get?, hv]
      simp
  have hend : (i + 1 = tags.length ∨ tags.getD (i + 1) "" ≠ L) ↔
      (tags.get? (i + 1) ≠ some L) := by
    rcases Nat.lt_or_ge (i + 1) tags.length with hlt | hge
    · have hv : tags.get? (i + 1) = some (tags.get ⟨i + 1, hlt⟩) :=
        List.get?_eq_get hlt
      rw [List.getD_eq_get?, hv]
      have hne2 : i + 1 ≠ tags.length := by omega
      simp [hne2]
    · have he : i + 1 = tags.length := by omega
      have hn : tags.get? (i + 1) = none := List.get?_eq_none.mpr (by omega)
      rw [hn]
      simp [he]
  unfold _convert_to_iobes
  rw [List.get?_map, List.get?_enum, h]
  simp only [Option.map_some']
  by_cases hO : L = "O"
  · simp [hO]
  · simp only [hO]
    simp only [hstart, hend]
    simp [hO]

/-- A string of the form c, dash, rest is never the single-character
string O. -/
theorem pre_append_ne_O (c : Char) (L : String) : String.mk [c, '-'] ++ L ≠ "O" := by
  intro he
  have hd : [c, '-'] ++ L.data = ['O'] := by
    have hq := congrArg String.data he
    rwa [String.data_append] at hq
  simp at hd

/-- Dropping the first two characters of a tag built as a two-character
prefix followed by the label recovers the label. -/
theorem strip_pre_append (c : Char) (L : String) :
    String.mk ((String.mk [c, '-'] ++ L).data.drop 2) = L := by
  have hd : (String.mk [c, '-'] ++ L).data = [c, '-'] ++ L.data :=
    String.data_append _ _
  rw [hd]
  rfl

/-- C6: the IOBES encoder emits, at each position i holding label L, the
string O when L is O, and otherwise S-L, B-L, E-L or I-L according to
whether position i starts and/or ends a maximal run of equal labels; and
the three concrete examples of the design document hold. -/
theorem iobes_characterization (tags : List String) :
    ((_convert_to_iobes tags).length = tags.length ∧
      ∀ i L, tags.get? i = some L →
        (_convert_to_iobes tags).get? i = some
          (if L = "O" then "O"
           else if i = 0 ∨ tags.get? (i - 1) ≠ some L then
             if tags.get? (i + 1) ≠ some L then "S-" ++ L else "B-" ++ L
           else if tags.get? (i + 1) ≠ some L then "E-" ++ L else "I-" ++ L)) ∧
    _convert_to_iobes ["PER", "PER", "PER"] = ["B-PER", "I-PER", "E-PER"] ∧
    _convert_to_iobes ["PER"] = ["S-PER"] ∧
    _convert_to_iobes ["O", "LOC", "O"] = ["O", "S-LOC", "O"] :=
  ⟨⟨iobes_length tags, fun i L h => iobes_get tags i L h⟩,
    by decide, by decide, by decide⟩

/-- C10: the IOBES output is O at a position exactly when the input label
is O there, and at every other position it is the input label with one of
the prefixes S-, B-, I-, E-, so dropping the two-character prefix recovers
the input label exactly. -/
theorem iobes_strip_recovers (tags : List String) :
    (_convert_to_iobes tags).length = tags.length ∧
    ∀ i L, tags.get? i = some L →
      (((_convert_to_iobes tags).get? i = some "O") ↔ L = "O") ∧
      (L ≠ "O" → ∃ p, (p = "S-" ∨ p = "B-" ∨ p = "I-" ∨ p = "E-") ∧
        (_convert_to_iobes tags).get? i = some (p ++ L) ∧
        String.mk ((p ++ L).data.drop 2) = L) := by
  refine ⟨iobes_length tags, fun i L h => ?_⟩
  have hg := iobes_get tags i L h
  by_cases hO : L = "O"
  · subst hO
    rw [if_pos rfl] at hg
    exact ⟨iff_of_true hg rfl, fun hne => absurd rfl hne⟩
  · rw [if_neg hO] at hg
    have key : ∃ p, (p = "S-" ∨ p = "B-" ∨ p = "I-" ∨ p = "E-") ∧
        (_convert_to_iobes tags).get? i = some (p ++ L) := by
      by_cases c1 : (i = 0 ∨ tags.get? (i - 1) ≠ some L) <;>
        by_cases c2 : (tags.get? (i + 1) ≠ some L)
      · exact ⟨"S-", Or.inl rfl, by rwa [if_pos c1, if_pos c2] at hg⟩
      · exact ⟨"B-", Or.inr (Or.inl rfl), by rwa [if_pos c1, if_neg c2] at hg⟩
      · exact ⟨"E-", Or.inr (Or.inr (Or.inr rfl)), by rwa [if_neg c1, if_pos c2] at hg⟩
      · exact ⟨"I-", Or.inr (Or.inr (Or.inl rfl)), by rwa [if_neg c1, if_neg c2] at hg⟩
    obtain ⟨p, hp, hout⟩ := key
    constructor
    · rw [hout]
      simp only [Option.some.injEq]
      constructor
      · intro he
        exfalso
        rcases hp with rfl | rfl | rfl | rfl
        · exact pre_append_ne_O 'S' L he
        · exact pre_append_ne_O 'B' L he
        · exact pre_append_ne_O 'I' L he
        · exact pre_append_ne_O 'E' L he
      · intro he
        exact absurd he hO
    · intro _
      refine ⟨p, hp, hout, ?_⟩
      rcases hp with rfl | rfl | rfl | rfl
      · exact strip_pre_append 'S' L
      · exact strip_pre_append 'B' L
      · exact strip_pre_append 'I' L
      · exact strip_pre_append 'E' L

/-! ## Sample assembler: truncation -/

/-- C4: every sample _truncate_output returns has its core fields cut to at
most max_length elements by taking a prefix (token_type_ids and, in train
mode, tags_ids are exactly that prefix; input_ids agrees with its prefix on
everything but the last element), and the final input_ids element is the
designated end-of-sequence ([SEP]) id. -/
theorem truncate_output_spec (devMode : Bool) (maxLength : Nat) (sepToken : Int)
    (inputIds tokenTypeIds tagsIds : List Int)
    (ii tt : List Int) (tg : Option (List Int))
    (h : _truncate_output devMode maxLength sepToken inputIds tokenTypeIds tagsIds =
      some (ii, tt, tg)) :
    ii.length ≤ maxLength ∧
    ii.length = (inputIds.take maxLength).length ∧
    ii.dropLast = (inputIds.take maxLength).dropLast ∧
    ii.getLast? = some sepToken ∧
    tt = tokenTypeIds.take maxLength ∧
    (devMode = true → tg = none) ∧
    (devMode = false → tg = some (tagsIds.take maxLength)) := by
  simp only [_truncate_output] at h
  cases hl : (inputIds.take maxLength).getLast? with
  | none =>
    rw [hl] at h
    exact Option.noConfusion h
  | some lastTok =>
    rw [hl] at h
    have hne : inputIds.take maxLength ≠ [] := by
      intro he
      rw [he] at hl
      exact Option.noConfusion hl
    have hlen : (inputIds.take maxLength).length ≤ maxLength := by
      rw [List.length_take]
      omega
    have hmain : ∀ jj : List Int,
        (jj = if lastTok = sepToken then inputIds.take maxLength
          else (inputIds.take maxLength).dropLast ++ [sepToken]) →
        jj.length = (inputIds.take maxLength).length ∧
        jj.dropLast = (inputIds.take maxLength).dropLast ∧
        jj.getLast? = some sepToken := by
      intro jj hjj
      by_cases hs : lastTok = sepToken
      · rw [if_pos hs] at hjj
        subst hjj
        exact ⟨rfl, rfl, by rw [hl, hs]⟩
      · rw [if_neg hs] at hjj
        subst hjj
        refine ⟨?_, List.dropLast_concat .., List.getLast?_concat _⟩
        rw [List.length_append, List.length_dropLast, List.length_singleton]
        have hpos : 0 < (inputIds.take maxLength).length := List.length_pos.mpr hne
        omega
    cases devMode with
    | false =>
      simp only [Bool.false_eq_true, if_false, Option.some.injEq, Prod.mk.injEq] at h
      obtain ⟨h1, h2, h3⟩ := h
      obtain ⟨g1, g2, g3⟩ := hmain ii h1.symm
      exact ⟨g1 ▸ hlen, g1, g2, g3, h2.symm, fun hd => Bool.noConfusion hd,
        fun _ => h3.symm⟩
    | true =>
      simp only [if_true, Option.some.injEq, Prod.mk.injEq] at h
      obtain ⟨h1, h2, h3⟩ := h
      obtain ⟨g1, g2, g3⟩ := hmain ii h1.symm
      exact ⟨g1 ▸ hlen, g1, g2, g3, h2.symm, fun _ => h3.symm,
        fun hd => Bool.noConfusion hd⟩

/-- Witness for C4 at a concrete input: truncating a five-token train-mode
sample to length four forces the [SEP] id 102 onto the final position. -/
theorem truncate_output_spec_witness :
    ([1, 5, 6, 102] : List Int).getLast? = some 102 :=
  (truncate_output_spec false 4 102 [1, 5, 6, 7, 8] [0, 0, 0, 0, 0] [9, 8, 7, 6, 5]
    [1, 5, 6, 102] [0, 0, 0, 0] (some [9, 8, 7, 6]) (by decide)).2.2.2.1

/-! ## Span-to-token aligner: length invariant -/

/-- Both indices the offset scan returns are positions of the scanned list,
hence below any bound on its position field. -/
theorem scanOffsets_lt (st en : Int) (N : Nat) :
    ∀ (l : List (Nat × Nat × Int × Int)) (si : Option Nat),
      (∀ q ∈ l, q.1 < N) → (∀ s, si = some s → s < N) →
      (∀ s, (scanOffsets st en l si).1 = some s → s < N) ∧
      (∀ e, (scanOffsets st en l si).2 = some e → e < N) := by
  intro l
  induction l with
  | nil =>
    intro si hl hsi
    exact ⟨fun s hs => hsi s hs, fun e he => Option.noConfusion he⟩
  | cons q rest ih =>
    intro si hl hsi
    obtain ⟨i, sp, so, eo⟩ := q
    simp only [scanOffsets]
    by_cases hsp : sp = 1
    · rw [if_pos hsp]
      exact ih si (fun q hq => hl q (List.mem_cons_of_mem _ hq)) hsi
    · rw [if_neg hsp]
      have hiN : i < N := hl (i, sp, so, eo) (List.mem_cons_self _ _)
      have hsi2 : ∀ s, (if so = st then some i else si) = some s → s < N := by
        intro s hs
        by_cases hso : so = st
        · rw [if_pos hso] at hs
          cases hs
          exact hiN
        · rw [if_neg hso] at hs
          exact hsi s hs
      by_cases heo : eo = en
      · rw [if_pos heo]
        exact ⟨fun s hs => hsi2 s hs, fun e he => by cases he; exact hiN⟩
      · rw [if_neg heo]
        exact ih _ (fun q hq => hl q (List.mem_cons_of_mem _ hq)) hsi2

/-- The assignment loop succeeds and preserves the length of the label list
when every index it writes is in bounds. -/
theorem setRange_length (ty : String) :
    ∀ (idxs : List Nat) (labels : List String),
      (∀ i ∈ idxs, i < labels.length) →
      ∃ l2, setRange labels ty idxs = some l2 ∧ l2.length = labels.length := by
  intro idxs
  induction idxs with
  | nil =>
    intro labels h
    exact ⟨labels, rfl, rfl⟩
  | cons i rest ih =>
    intro labels h
    have hi : i < labels.length := h i (List.mem_cons_self _ _)
    obtain ⟨l2, h2, hlen⟩ := ih (labels.set i ty)
      (by intro j hj; rw [List.length_set]; exact h j (List.mem_cons_of_mem _ hj))
    refine ⟨l2, ?_, by rw [hlen, List.length_set]⟩
    simp only [setRange, List.foldlM_cons, if_pos hi, Option.bind_eq_bind,
      Option.some_bind]
    exact h2

/-- C9: on positionally aligned tokenizer output (offsets and special-token
mask of the same length as the token list), convert_to_token_level succeeds
and returns a label sequence whose length equals the token count, for every
annotation list, including annotations whose boundaries match no token
offset. -/
theorem convert_to_token_level_length (tokens : List String)
    (offsets : List (Int × Int)) (specialTokens : List Nat) (anns : List Ann)
    (hs : specialTokens.length = tokens.length)
    (ho : offsets.length = tokens.length) :
    ∃ out, convert_to_token_level tokens offsets specialTokens anns = some out ∧
      out.length = tokens.length := by
  have hziplen : (specialTokens.zip offsets).length = tokens.length := by
    rw [List.length_zip, hs, ho, Nat.min_self]
  have hq : ∀ q ∈ ((specialTokens.zip offsets).enum.map
      (fun q => (q.1, q.2.1, q.2.2.1, q.2.2.2))), q.1 < tokens.length := by
    intro q hq2
    obtain ⟨p, hp, rfl⟩ := List.mem_map.mp hq2
    have hb := List.mem_enumFrom (by simpa using hp)
    omega
  have hfold : ∀ (l : List Ann) (labels : List String),
      labels.length = tokens.length →
      ∃ out2, (l.foldlM
        (fun (labels : List String) a =>
          match scanOffsets a.1 a.2.1 ((specialTokens.zip offsets).enum.map
            (fun q => (q.1, q.2.1, q.2.2.1, q.2.2.2))) none with
          | (some s, some e) => setRange labels a.2.2 (List.range' s (e + 1 - s))
          | _ => some labels)
        labels) = some out2 ∧ out2.length = tokens.length := by
    intro l
    induction l with
    | nil =>
      intro labels h
      exact ⟨labels, rfl, h⟩
    | cons a rest ih =>
      intro labels h
      rw [List.foldlM_cons]
      have hscan := scanOffsets_lt a.1 a.2.1 tokens.length
        ((specialTokens.zip offsets).enum.map (fun q => (q.1, q.2.1, q.2.2.1, q.2.2.2)))
        none hq (fun s hs2 => Option.noConfusion hs2)
      cases hres : scanOffsets a.1 a.2.1 ((specialTokens.zip offsets).enum.map
          (fun q => (q.1, q.2.1, q.2.2.1, q.2.2.2))) none with
      | mk si ei =>
        rw [hres] at hscan
        cases si with
        | none =>
          obtain ⟨out2, h2, hl2⟩ := ih labels h
          exact ⟨out2, by rw [Option.bind_eq_bind, Option.some_bind]; exact h2, hl2⟩
        | some s =>
          cases ei with
          | none =>
            obtain ⟨out2, h2, hl2⟩ := ih labels h
            exact ⟨out2, by rw [Option.bind_eq_bind, Option.some_bind]; exact h2, hl2⟩
          | some e =>
            have heN : e < tokens.length := hscan.2 e rfl
            obtain ⟨l2, hl2eq, hl2len⟩ := setRange_length a.2.2
              (List.range' s (e + 1 - s)) labels
              (by
                intro j hj
                rw [List.mem_range'] at hj
                rw [h]
                omega)
            obtain ⟨out2, h2, hlen2⟩ := ih l2 (hl2len.trans h)
            refine ⟨out2, ?_, hlen2⟩
            rw [Option.bind_eq_bind]
            show (setRange labels a.2.2 (List.range' s (e + 1 - s))).bind _ = some out2
            rw [hl2eq, Option.some_bind]
            exact h2
  simp only [convert_to_token_level]
  obtain ⟨out2, h2, hl2⟩ := hfold anns (List.replicate tokens.length "O")
    (List.length_replicate _ _)
  rw [Option.bind_eq_bind, h2, Option.some_bind]
  rw [if_pos hl2, if_pos (iobes_length out2).symm]
  exact ⟨_convert_to_iobes out2, rfl, (iobes_length out2).trans hl2⟩

/-- Witness for C9 at a concrete input: a four-token tokenization with one
annotation whose boundaries match the offsets of the two middle tokens. -/
theorem convert_to_token_level_length_witness :
    ∃ out, convert_to_token_level ["[CLS]", "iv", "an", "[SEP]"]
        [(0, 0), (0, 2), (2, 4), (0, 0)] [1, 0, 0, 1]
        [((0 : Int), (4 : Int), "PER")] = some out ∧
      out.length = (["[CLS]", "iv", "an", "[SEP]"] : List String).length :=
  convert_to_token_level_length ["[CLS]", "iv", "an", "[SEP]"]
    [(0, 0), (0, 2), (2, 4), (0, 0)] [1, 0, 0, 1]
    [((0 : Int), (4 : Int), "PER")] (by decide) (by decide)

/-! ## Tag vocabulary construction on empty and duplicate lists -/

/-- C7 evidence: the tags2id construction is total and does not reject bad
entity type lists. On the duplicate list PER, PER it silently overwrites the
four PER ids with the second occurrence's ids 5..8, and on the empty list it
builds the vocabulary holding only O; in neither case does construction
fail, although the design document requires both to be rejected. -/
theorem tags2id_total_on_bad_lists :
    tags2id ["PER", "PER"] =
      [("S-PER", 5), ("B-PER", 6), ("I-PER", 7), ("E-PER", 8), ("O", 0)] ∧
    tags2id [] = [("O", 0)] := by
  decide

/-! ## Batching helper -/

/-- C8 counterexample: collate_batch pads by appending zeros (the second
sample's input_ids row comes out as 3 then 0, not 0 then 3 as left-padding
would give), and it includes the tag-id field although the first sample of
the batch carries none. -/
theorem collate_batch_cex :
    collate_batch [([1, 2], [5, 6], none), ([3], [7], some [9])] =
      some ([[1, 2], [3, 0]], [[5, 6], [7, 0]], some [[9, 0]]) ∧
    ([3, 0] : List Int) ≠ [0, 3] := by
  decide

/-- C8 (amended): for every non-empty batch, collate_batch right-pads every
field of each sample with zeros up to the batch's maximum input_ids length
and stacks them in order, and it includes the tag-id field exactly when at
least one sample of the batch includes it, stacking the padded tag rows of
exactly those samples that have them. -/
theorem collate_batch_spec (batch : List (List Int × List Int × Option (List Int)))
    (hne : batch ≠ []) :
    collate_batch batch =
      some (
        batch.map (fun x => x.1 ++ List.replicate
          (((batch.map (fun y => y.1.length)).foldl max 0) - x.1.length) 0),
        batch.map (fun x => x.2.1 ++ List.replicate
          (((batch.map (fun y => y.1.length)).foldl max 0) - x.2.1.length) 0),
        if ∀ x ∈ batch, x.2.2 = none then none
        else some (batch.filterMap (fun x => x.2.2.map (fun t => t ++ List.replicate
          (((batch.map (fun y => y.1.length)).foldl max 0) - t.length) 0)))) := by
  cases batch with
  | nil => exact absurd rfl hne
  | cons b bs =>
    simp only [collate_batch]
    have hcond : ((b :: bs).filterMap (fun x => x.2.2.map
        (fun l => l ++ List.replicate
          ((((b :: bs).map (fun x => x.1.length)).foldl max 0) - l.length) 0))).isEmpty = true ↔
        (∀ x ∈ b :: bs, x.2.2 = none) := by
      rw [List.isEmpty_iff, List.filterMap_eq_nil]
      constructor
      · intro h x hx
        have hm := h x hx
        rwa [Option.map_eq_none'] at hm
      · intro h x hx
        rw [h x hx]
        rfl
    by_cases hc : ∀ x ∈ b :: bs, x.2.2 = none
    · rw [if_pos (hcond.mpr hc), if_pos hc]
    · rw [if_neg (fun hh => hc (hcond.mp hh)), if_neg hc]

/-- Witness for C8 (amended) at a concrete input: a two-sample batch where
only the second sample carries tag ids. -/
theorem collate_batch_spec_witness :
    collate_batch [([1, 2], [5, 6], none), ([3], [7], some [9])] =
      some ([[1, 2], [3, 0]], [[5, 6], [7, 0]], some [[9, 0]]) := by
  have h := collate_batch_spec [([1, 2], [5, 6], none), ([3], [7], some [9])]
    (by decide)
  rw [h]
  decide

/-! ## Tag vocabulary: ids, inverse lookup, unknown-id fallback -/

/-- Python dict assignment with a key not yet present appends the entry. -/
theorem dictInsert_fresh {α β : Type} [DecidableEq α] (d : List (α × β)) (k : α) (v : β)
    (h : ∀ p ∈ d, p.1 ≠ k) : dictInsert d k v = d ++ [(k, v)] := by
  have hc : (d.any (fun p => p.1 = k)) = false := by
    rw [List.any_eq_false]
    intro p hp
    simpa using h p hp
  unfold dictInsert
  rw [hc]
  simp

/-- Lookup of a present key in a dict with pairwise distinct keys. -/
theorem dictGet_of_mem {α β : Type} [DecidableEq α] :
    ∀ (d : List (α × β)), (d.map Prod.fst).Nodup →
      ∀ (k : α) (v : β), (k, v) ∈ d → dictGet d k = some v := by
  intro d
  induction d with
  | nil => intro _ k v h; cases h
  | cons p rest ih =>
    intro hk k v h
    rw [List.map_cons, List.nodup_cons] at hk
    rcases List.mem_cons.mp h with he | hmem
    · have hpe : p = (k, v) := he.symm
      subst hpe
      unfold dictGet
      rw [List.find?_cons_of_pos _ (by simp)]
      rfl
    · unfold dictGet
      rw [List.find?_cons_of_neg]
      · exact ih hk.2 k v hmem
      · simp only [decide_eq_true_eq]
        intro hpk
        exact hk.1 (hpk ▸ (List.mem_map_of_mem Prod.fst hmem))

/-- Lookup of an absent key. -/
theorem dictGet_eq_none {α β : Type} [DecidableEq α] (d : List (α × β)) (k : α)
    (h : ∀ p ∈ d, p.1 ≠ k) : dictGet d k = none := by
  unfold dictGet
  rw [List.find?_eq_none.mpr]
  · rfl
  · intro p hp
    simpa using h p hp

/-- A successful lookup comes from an entry of the dict. -/
theorem mem_of_dictGet {α β : Type} [DecidableEq α] (d : List (α × β)) (k : α) (v : β)
    (h : dictGet d k = some v) : (k, v) ∈ d := by
  unfold dictGet at h
  cases hf : d.find? (fun p => p.1 = k) with
  | none => rw [hf] at h; exact Option.noConfusion h
  | some p =>
    rw [hf] at h
    have hp := List.mem_of_find?_eq_some hf
    have hpk := List.find?_some hf
    simp only [Option.map_some', Option.some.injEq] at h
    simp only [decide_eq_true_eq] at hpk
    have hpe : p = (k, v) := by
      obtain ⟨p1, p2⟩ := p
      simp_all
    rwa [hpe] at hp

/-- The dict comprehension swapping keys and values, folded over entries
with pairwise distinct values, is the entrywise swap. -/
theorem foldl_swapInsert_eq_map {α β : Type} [DecidableEq β] :
    ∀ (d : List (α × β)) (acc : List (β × α)),
      ((acc.map Prod.fst) ++ (d.map Prod.snd)).Nodup →
      d.foldl (fun e p => dictInsert e p.2 p.1) acc =
        acc ++ d.map (fun p => (p.2, p.1)) := by
  intro d
  induction d with
  | nil => intro acc _; simp
  | cons p rest ih =>
    intro acc h
    rw [List.foldl_cons]
    rw [List.map_cons] at h
    have hfresh : ∀ q ∈ acc, q.1 ≠ p.2 := by
      have hd := h
      rw [List.nodup_append] at hd
      intro q hq he
      exact hd.2.2 (List.mem_map_of_mem Prod.fst hq)
        (by rw [he]; exact List.mem_cons_self _ _)
    have h2 : (((acc ++ [(p.2, p.1)]).map Prod.fst) ++ rest.map Prod.snd).Nodup := by
      rw [List.map_append]
      rw [List.append_assoc]
      simpa using h
    rw [dictInsert_fresh acc p.2 p.1 hfresh, ih (acc ++ [(p.2, p.1)]) h2]
    simp

/-- Character data of a tag key: a prefix character, a dash, the type name. -/
theorem key_data (c : Char) (s t : String) (hs : s.data = [c, '-']) :
    (s ++ t).data = c :: '-' :: t.data := by
  rw [String.data_append, hs]
  rfl

/-- Equal tag keys have the same prefix character and the same type name. -/
theorem key_eq_elim {c1 c2 : Char} {s1 s2 t u : String}
    (h1 : s1.data = [c1, '-']) (h2 : s2.data = [c2, '-'])
    (he : s1 ++ t = s2 ++ u) : c1 = c2 ∧ t = u := by
  have hd := congrArg String.data he
  rw [key_data c1 s1 t h1, key_data c2 s2 u h2] at hd
  injection hd with hc hd2
  injection hd2 with hdash hd3
  exact ⟨hc, String.ext hd3⟩

/-- Tag keys with different prefix characters differ. -/
theorem key_ne {c1 c2 : Char} {s1 s2 : String} (t u : String)
    (h1 : s1.data = [c1, '-']) (h2 : s2.data = [c2, '-']) (hne : c1 ≠ c2) :
    s1 ++ t ≠ s2 ++ u :=
  fun he => hne (key_eq_elim h1 h2 he).1

/-- No tag key is the one-character string O. -/
theorem key_ne_O {c : Char} {s : String} (t : String) (hs : s.data = [c, '-']) :
    s ++ t ≠ "O" := by
  intro he
  have hd := congrArg String.data he
  rw [key_data c s t hs] at hd
  have ho : ("O" : String).data = ['O'] := rfl
  rw [ho] at hd
  simp at hd

/-- Every key of the flat vocabulary is a prefixed entity type name. -/
theorem mem_keys_quadList {n : Nat} {tags : List String} {k : String}
    (h : k ∈ (quadList n tags).map Prod.fst) :
    ∃ c t, (c = 'S' ∨ c = 'B' ∨ c = 'I' ∨ c = 'E') ∧ t ∈ tags ∧
      ∃ s : String, s.data = [c, '-'] ∧ k = s ++ t := by
  obtain ⟨q, hq, rfl⟩ := List.mem_map.mp h
  obtain ⟨p, hp, hq2⟩ := List.mem_flatMap.mp hq
  have ht : p.2 ∈ tags := by
    have hsnd := List.enumFrom_map_snd n tags
    rw [← hsnd]
    exact List.mem_map_of_mem Prod.snd hp
  simp only [List.mem_cons, List.not_mem_nil, or_false] at hq2
  rcases hq2 with rfl | rfl | rfl | rfl
  · exact ⟨'S', p.2, Or.inl rfl, ht, "S-", rfl, rfl⟩
  · exact ⟨'B', p.2, Or.inr (Or.inl rfl), ht, "B-", rfl, rfl⟩
  · exact ⟨'I', p.2, Or.inr (Or.inr (Or.inl rfl)), ht, "I-", rfl, rfl⟩
  · exact ⟨'E', p.2, Or.inr (Or.inr (Or.inr rfl)), ht, "E-", rfl, rfl⟩

/-- On a duplicate-free entity type list the flat vocabulary has pairwise
distinct keys. -/
theorem keys_quadList_nodup : ∀ (tags : List String), tags.Nodup → ∀ n,
    ((quadList n tags).map Prod.fst).Nodup := by
  intro tags
  induction tags with
  | nil =>
    intro _ n
    simp [quadList]
  | cons t rest ih =>
    intro hnd n
    rw [List.nodup_cons] at hnd
    have hstep : quadList n (t :: rest) =
        [("S-" ++ t, 4 * n + 1), ("B-" ++ t, 4 * n + 2), ("I-" ++ t, 4 * n + 3),
         ("E-" ++ t, 4 * n + 4)] ++ quadList (n + 1) rest := rfl
    rw [hstep, List.map_append, List.nodup_append]
    refine ⟨?_, ih hnd.2 (n + 1), ?_⟩
    · simp only [List.map_cons, List.map_nil]
      rw [List.nodup_cons, List.nodup_cons, List.nodup_cons]
      refine ⟨?_, ?_, ?_, List.nodup_singleton _⟩
      · simp only [List.mem_cons, List.not_mem_nil, or_false]
        rintro (he | he | he)
        · exact key_ne t t rfl rfl (by decide) he
        · exact key_ne t t rfl rfl (by decide) he
        · exact key_ne t t rfl rfl (by decide) he
      · simp only [List.mem_cons, List.not_mem_nil, or_false]
        rintro (he | he)
        · exact key_ne t t rfl rfl (by decide) he
        · exact key_ne t t rfl rfl (by decide) he
      · simp only [List.mem_singleton]
        intro he
        exact key_ne t t rfl rfl (by decide) he
    · intro k hk hk2
      obtain ⟨c2, u, hc2, hu, s2, hs2, hke⟩ := mem_keys_quadList hk2
      simp only [List.map_cons, List.map_nil, List.mem_cons, List.not_mem_nil,
        or_false] at hk
      rcases hk with rfl | rfl | rfl | rfl
      · exact hnd.1 ((key_eq_elim rfl hs2 hke).2 ▸ hu)
      · exact hnd.1 ((key_eq_elim rfl hs2 hke).2 ▸ hu)
      · exact hnd.1 ((key_eq_elim rfl hs2 hke).2 ▸ hu)
      · exact hnd.1 ((key_eq_elim rfl hs2 hke).2 ▸ hu)

/-- Values of the flat vocabulary from base index n: all above 4n and
pairwise distinct. -/
theorem vals_quadList : ∀ (tags : List String) (n : Nat),
    (∀ v ∈ (quadList n tags).map Prod.snd, 4 * n < v) ∧
    ((quadList n tags).map Prod.snd).Nodup := by
  intro tags
  induction tags with
  | nil =>
    intro n
    simp [quadList]
  | cons t rest ih =>
    intro n
    have hstep : quadList n (t :: rest) =
        [("S-" ++ t, 4 * n + 1), ("B-" ++ t, 4 * n + 2), ("I-" ++ t, 4 * n + 3),
         ("E-" ++ t, 4 * n + 4)] ++ quadList (n + 1) rest := rfl
    rw [hstep, List.map_append]
    constructor
    · intro v hv
      rcases List.mem_append.mp hv with hb | hr
      · simp only [List.map_cons, List.map_nil, List.mem_cons, List.not_mem_nil,
          or_false] at hb
        rcases hb with rfl | rfl | rfl | rfl <;> omega
      · have hgt := (ih (n + 1)).1 v hr
        omega
    · rw [List.nodup_append]
      refine ⟨?_, (ih (n + 1)).2, ?_⟩
      · simp only [List.map_cons, List.map_nil]
        rw [List.nodup_cons, List.nodup_cons, List.nodup_cons]
        refine ⟨?_, ?_, ?_, List.nodup_singleton _⟩ <;> simp
      · intro v hv hv2
        have hgt := (ih (n + 1)).1 v hv2
        simp only [List.map_cons, List.map_nil, List.mem_cons, List.not_mem_nil,
          or_false] at hv
        rcases hv with rfl | rfl | rfl | rfl <;> omega

/-- The four entries of the entity type at index i are entries of the flat
vocabulary. -/
theorem mem_quadList (tags : List String) (i : Nat) (hi : i < tags.length) :
    ("S-" ++ tags.get ⟨i, hi⟩, 4 * i + 1) ∈ quadList 0 tags ∧
    ("B-" ++ tags.get ⟨i, hi⟩, 4 * i + 2) ∈ quadList 0 tags ∧
    ("I-" ++ tags.get ⟨i, hi⟩, 4 * i + 3) ∈ quadList 0 tags ∧
    ("E-" ++ tags.get ⟨i, hi⟩, 4 * i + 4) ∈ quadList 0 tags := by
  have hlen : i < (List.enumFrom 0 tags).length := by
    simpa using hi
  have hget := List.get_enumFrom tags 0 ⟨i, hlen⟩
  have hmem : (0 + i, tags.get ⟨i, hi⟩) ∈ List.enumFrom 0 tags := by
    have hm := List.get_mem (List.enumFrom 0 tags) i hlen
    rw [hget] at hm
    exact hm
  rw [Nat.zero_add] at hmem
  refine ⟨?_, ?_, ?_, ?_⟩ <;>
    exact List.mem_flatMap.mpr ⟨(i, tags.get ⟨i, hi⟩), hmem, by simp⟩

/-- The enumerated fold of the tags2id construction only ever inserts fresh
keys when the produced keys are pairwise distinct, so it appends the flat
vocabulary to the accumulated dict. -/
theorem quad_fold_eq : ∀ (l : List String) (n : Nat) (d : List (String × Nat)),
    (((d ++ quadList n l).map Prod.fst)).Nodup →
    (List.enumFrom n l).foldl
      (fun d p =>
        dictInsert
          (dictInsert
            (dictInsert
              (dictInsert d ("S-" ++ p.2) (4 * p.1 + 1))
              ("B-" ++ p.2) (4 * p.1 + 2))
            ("I-" ++ p.2) (4 * p.1 + 3))
          ("E-" ++ p.2) (4 * p.1 + 4))
      d = d ++ quadList n l := by
  intro l
  induction l with
  | nil =>
    intro n d _
    simp [quadList, List.enumFrom]
  | cons t rest ih =>
    intro n d h
    have hstep : quadList n (t :: rest) =
        [("S-" ++ t, 4 * n + 1), ("B-" ++ t, 4 * n + 2), ("I-" ++ t, 4 * n + 3),
         ("E-" ++ t, 4 * n + 4)] ++ quadList (n + 1) rest := rfl
    have h2 : ((d.map Prod.fst ++
        (["S-" ++ t, "B-" ++ t, "I-" ++ t, "E-" ++ t] ++
          (quadList (n + 1) rest).map Prod.fst))).Nodup := by
      rw [hstep] at h
      simpa using h
    rw [List.nodup_append] at h2
    obtain ⟨hd, hq, hdisj⟩ := h2
    rw [List.nodup_append] at hq
    obtain ⟨hblock, hrest, hbdisj⟩ := hq
    rw [List.nodup_cons, List.nodup_cons, List.nodup_cons] at hblock
    have hS : ∀ p ∈ d, p.1 ≠ "S-" ++ t := fun p hp he =>
      hdisj (List.mem_map_of_mem Prod.fst hp) (by rw [he]; simp)
    have hB : ∀ p ∈ d ++ [("S-" ++ t, 4 * n + 1)], p.1 ≠ "B-" ++ t := by
      intro p hp he
      rcases List.mem_append.mp hp with hp1 | hp2
      · exact hdisj (List.mem_map_of_mem Prod.fst hp1) (by rw [he]; simp)
      · rw [List.mem_singleton] at hp2
        rw [hp2] at he
        exact hblock.1 (by rw [← he]; simp)
    have hI : ∀ p ∈ (d ++ [("S-" ++ t, 4 * n + 1)]) ++ [("B-" ++ t, 4 * n + 2)],
        p.1 ≠ "I-" ++ t := by
      intro p hp he
      rcases List.mem_append.mp hp with hp1 | hp2
      · rcases List.mem_append.mp hp1 with hp3 | hp4
        · exact hdisj (List.mem_map_of_mem Prod.fst hp3) (by rw [he]; simp)
        · rw [List.mem_singleton] at hp4
          rw [hp4] at he
          exact hblock.1 (by rw [← he]; simp)
      · rw [List.mem_singleton] at hp2
        rw [hp2] at he
        exact hblock.2.1 (by rw [← he]; simp)
    have hE : ∀ p ∈ ((d ++ [("S-" ++ t, 4 * n + 1)]) ++ [("B-" ++ t, 4 * n + 2)]) ++
        [("I-" ++ t, 4 * n + 3)], p.1 ≠ "E-" ++ t := by
      intro p hp he
      rcases List.mem_append.mp hp with hp1 | hp2
      · rcases List.mem_append.mp hp1 with hp3 | hp4
        · rcases List.mem_append.mp hp3 with hp5 | hp6
          · exact hdisj (List.mem_map_of_mem Prod.fst hp5) (by rw [he]; simp)
          · rw [List.mem_singleton] at hp6
            rw [hp6] at he
            exact hblock.1 (by rw [← he]; simp)
        · rw [List.mem_singleton] at hp4
          rw [hp4] at he
          exact hblock.2.1 (by rw [← he]; simp)
      · rw [List.mem_singleton] at hp2
        rw [hp2] at he
        exact hblock.2.2.1 (by rw [← he]; simp)
    rw [show List.enumFrom n (t :: rest) = (n, t) :: List.enumFrom (n + 1) rest from rfl]
    simp only [List.foldl_cons]
    rw [dictInsert_fresh d _ _ hS, dictInsert_fresh _ _ _ hB,
      dictInsert_fresh _ _ _ hI, dictInsert_fresh _ _ _ hE]
    rw [ih (n + 1) _ (by
      rw [hstep] at h
      simp only [List.map_append, List.map_cons, List.map_nil] at h ⊢
      simp only [List.append_assoc]
      simpa [List.append_assoc] using h)]
    rw [hstep]
    simp [List.append_assoc]

/-- On a duplicate-free entity type list, tags2id is exactly the flat
vocabulary followed by the O entry. -/
theorem tags2id_eq_quadList (tags : List String) (hnd : tags.Nodup) :
    tags2id tags = quadList 0 tags ++ [("O", 0)] := by
  have hkeys : ((quadList 0 tags).map Prod.fst).Nodup := keys_quadList_nodup tags hnd 0
  have hfold := quad_fold_eq tags 0 [] (by simpa using hkeys)
  have hO : ∀ p ∈ ([] : List (String × Nat)) ++ quadList 0 tags, p.1 ≠ "O" := by
    intro p hp he
    rw [List.nil_append] at hp
    obtain ⟨c, t, hc, ht, s, hs, hke⟩ := mem_keys_quadList
      (List.mem_map_of_mem Prod.fst hp)
    exact key_ne_O t hs (hke ▸ he)
  unfold tags2id
  rw [show tags.enum = List.enumFrom 0 tags from rfl]
  rw [hfold, dictInsert_fresh _ _ _ hO]
  simp

/-- The ids tags2id assigns are pairwise distinct. -/
theorem vals_tags2id_nodup (tags : List String) (hnd : tags.Nodup) :
    ((tags2id tags).map Prod.snd).Nodup := by
  rw [tags2id_eq_quadList tags hnd, List.map_append, List.nodup_append]
  refine ⟨(vals_quadList tags 0).2, by simp, ?_⟩
  intro v hv hv2
  simp only [List.map_cons, List.map_nil, List.mem_singleton] at hv2
  subst hv2
  have hgt := (vals_quadList tags 0).1 0 hv
  omega

/-- The keys of tags2id are pairwise distinct. -/
theorem keys_tags2id_nodup (tags : List String) (hnd : tags.Nodup) :
    ((tags2id tags).map Prod.fst).Nodup := by
  rw [tags2id_eq_quadList tags hnd, List.map_append, List.nodup_append]
  refine ⟨keys_quadList_nodup tags hnd 0, by simp, ?_⟩
  intro k hk hk2
  simp only [List.map_cons, List.map_nil, List.mem_singleton] at hk2
  obtain ⟨c, t, hc, ht, s, hs, rfl⟩ := mem_keys_quadList hk
  exact key_ne_O t hs hk2

/-- On a duplicate-free entity type list, id2tags is the entrywise swap of
tags2id. -/
theorem id2tags_eq (tags : List String) (hnd : tags.Nodup) :
    id2tags tags = (tags2id tags).map (fun p => (p.2, p.1)) := by
  have hvals := vals_tags2id_nodup tags hnd
  unfold id2tags
  have h := foldl_swapInsert_eq_map (tags2id tags) [] (by simpa using hvals)
  simpa using h

/-- The keys of id2tags are pairwise distinct. -/
theorem keys_id2tags_nodup (tags : List String) (hnd : tags.Nodup) :
    ((id2tags tags).map Prod.fst).Nodup := by
  rw [id2tags_eq tags hnd, List.map_map]
  exact vals_tags2id_nodup tags hnd

/-- C3: for a vocabulary built from a duplicate-free ordered entity type
list, the type at index i has ids 4i+1..4i+4 for its S-, B-, I-, E- tags, O
has id 0, the reverse map id2tags is the exact inverse of tags2id (so
tag_of(id(t)) == t for every valid tag t), and convert_ids_to_tags maps
every id absent from the reverse map to O instead of failing. -/
theorem tag_vocabulary_spec (tags : List String) (hnd : tags.Nodup) :
    (∀ i (hi : i < tags.length),
      dictGet (tags2id tags) ("S-" ++ tags.get ⟨i, hi⟩) = some (4 * i + 1) ∧
      dictGet (tags2id tags) ("B-" ++ tags.get ⟨i, hi⟩) = some (4 * i + 2) ∧
      dictGet (tags2id tags) ("I-" ++ tags.get ⟨i, hi⟩) = some (4 * i + 3) ∧
      dictGet (tags2id tags) ("E-" ++ tags.get ⟨i, hi⟩) = some (4 * i + 4)) ∧
    dictGet (tags2id tags) "O" = some 0 ∧
    (∀ t n, dictGet (tags2id tags) t = some n → dictGet (id2tags tags) n = some t) ∧
    (∀ n, (∀ p ∈ id2tags tags, p.1 ≠ n) → convert_ids_to_tags tags [n] = ["O"]) := by
  have hknd := keys_tags2id_nodup tags hnd
  refine ⟨?_, ?_, ?_, ?_⟩
  · intro i hi
    obtain ⟨m1, m2, m3, m4⟩ := mem_quadList tags i hi
    have hmem : ∀ q ∈ quadList 0 tags, q ∈ tags2id tags := by
      intro q hq
      rw [tags2id_eq_quadList tags hnd]
      exact List.mem_append_left _ hq
    exact ⟨dictGet_of_mem _ hknd _ _ (hmem _ m1), dictGet_of_mem _ hknd _ _ (hmem _ m2),
      dictGet_of_mem _ hknd _ _ (hmem _ m3), dictGet_of_mem _ hknd _ _ (hmem _ m4)⟩
  · apply dictGet_of_mem _ hknd
    rw [tags2id_eq_quadList tags hnd]
    exact List.mem_append_right _ (List.mem_singleton_self _)
  · intro t n h
    have hmem := mem_of_dictGet _ _ _ h
    have hswap : (n, t) ∈ id2tags tags := by
      rw [id2tags_eq tags hnd]
      exact List.mem_map.mpr ⟨(t, n), hmem, rfl⟩
    exact dictGet_of_mem _ (keys_id2tags_nodup tags hnd) _ _ hswap
  · intro n hn
    unfold convert_ids_to_tags
    rw [List.map_cons, List.map_nil, dictGet_eq_none _ _ hn]
    rfl

/-- Witness for C3 at a concrete input: the two-type vocabulary PER, LOC,
where the S-PER tag gets id 1. -/
theorem tag_vocabulary_spec_witness :
    dictGet (tags2id ["PER", "LOC"])
      ("S-" ++ (["PER", "LOC"] : List String).get ⟨0, by decide⟩) = some 1 :=
  ((tag_vocabulary_spec ["PER", "LOC"] (by decide)).1 0 (by decide)).1

end NERDataset
